import Mathlib

/-!
Shallow embedding of the country refresh pipeline of `src/stage-2/app.py`
(Flask application): the helpers `process_countries`, `save_countries`,
the route handlers `refresh_countries`, `list_countries`, `get_status`,
`delete_country`, and the currency derivation inside `process_countries`.

Modelling conventions:
* JSON floats are embedded as rationals (`ℚ`), JSON integers as `Int`,
  timestamps as abstract `Nat` values.
* A JSON field that may be absent or null is an `Option`.
* `random.randint(1000, 2000)` is an injected draw function `rand : Nat → Int`
  indexed by the entity's position; theorems that need the real range add the
  bound `1000 ≤ rand i ≤ 2000` or instantiate with values inside it.
* Python's `ZeroDivisionError` (raised by `x / 0.0`) is embedded explicitly:
  the derivation returns `Except Unit _` and the division is only performed
  on the non-zero branch, so the embedded division never divides by zero.
* The SQLAlchemy table is embedded as a list of rows in insertion (rowid)
  order; `query.filter(...).first()` is the first list element matching,
  `db.session.add` appends, `order_by(...desc().nulls_last())` is embedded
  with a deterministic insertion sort over the corresponding key order, and
  `order_by(last_refreshed_at.desc()).first()` is embedded by its value, the
  maximum timestamp where SQL NULL sorts below every value.
* `db.session.commit()` inside `save_countries` makes the batch durable, so
  the `db.session.rollback()` in `refresh_countries`' except-branch cannot
  undo it; the embedding of `refresh_countries` reflects this: the store
  returned on the image-generation failure path is the saved store.
-/

namespace Countries

/-- One entry of an entity's `currencies` list: a JSON object that may or may
not carry a `code` field (`(currencies[0] or {}).get('code')`). -/
structure Currency where
  code : Option String
deriving DecidableEq

/-- A raw entity from the countries feed, as read by `process_countries` via
`country.get(...)`: every field may be absent (`none`); a list entry of
`currencies` may itself be JSON `null`. -/
structure RawCountry where
  name : Option String
  capital : Option String
  region : Option String
  population : Option Int
  flag : Option String
  currencies : List (Option Currency)
deriving DecidableEq

/-- The `rates` mapping of the exchange-rates feed (`rates_json['rates']`). -/
abbrev RateTable := List (String × ℚ)

/-- A processed record dict as built by `process_countries`. -/
structure ProcRecord where
  name : String
  capital : Option String
  region : Option String
  population : Int
  currency_code : Option String
  exchange_rate : Option ℚ
  estimated_gdp : Option ℚ
  flag_url : Option String
  last_refreshed_at : Nat
deriving DecidableEq

/-- A persisted `CountryModel` row (the `id` column is the list position and
is not modelled as a field). -/
structure StoredCountry where
  name : String
  capital : Option String
  region : Option String
  population : Int
  currency_code : Option String
  exchange_rate : Option ℚ
  estimated_gdp : Option ℚ
  flag_url : Option String
  last_refreshed_at : Option Nat
deriving DecidableEq

/-- The `country` table, rows in insertion (rowid) order. -/
abbrev Store := List StoredCountry

/-- One value of the validation error map: which of the `name` /
`population` sub-keys were set to `'is required'`. -/
structure VErr where
  nameMissing : Bool
  populationMissing : Bool
deriving DecidableEq

/-- Result of `process_countries`: an uncaught `ZeroDivisionError`, a
validation-error map (`return None, validation_errors`), or the processed
record list (`return processed, None`). -/
inductive ProcResult where
  | fault
  | invalid (errors : List (String × VErr))
  | ok (records : List ProcRecord)
deriving DecidableEq

/-- The HTTP outcome of `refresh_countries`: 503 fetch failure, 400
validation failure, 500 from an exception escaping the handler
(`ZeroDivisionError` in `process_countries`), 500 `"Internal server error"`
from the except-branch, or the 200 success payload. -/
inductive RefreshResponse where
  | fetchError
  | validationError (errors : List (String × VErr))
  | uncaughtFault
  | internalError
  | success (total : Nat) (ts : Nat)
deriving DecidableEq

/-- Python truthiness test `not name` for an optional string: true for an
absent name and for the empty string. -/
def pyFalsyName : Option String → Bool
  | none => true
  | some n => n == ""

/-- `if not name or population is None` of `process_countries`. -/
def invalidEntity (c : RawCountry) : Bool :=
  pyFalsyName c.name || c.population.isNone

/-- Error-map key `name or f'index_{idx}'`. -/
def errKey (i : Nat) (c : RawCountry) : String :=
  match c.name with
  | some n => if n == "" then "index_" ++ toString i else n
  | none => "index_" ++ toString i

/-- Error-map value for an invalid entity: which required fields were
reported missing. -/
def errVal (c : RawCountry) : VErr :=
  ⟨pyFalsyName c.name, c.population.isNone⟩

/-- Python dict assignment `d[k] = v`: replace the value in place if the key
exists (keeping the key's position), else append the new pair. -/
def dictSet (m : List (String × VErr)) (k : String) (v : VErr) :
    List (String × VErr) :=
  match m with
  | [] => [(k, v)]
  | (k', v') :: rest => if k' == k then (k, v) :: rest else (k', v') :: dictSet rest k v

/-- `(currencies[0] or {}).get('code')`: the code of the first currency
entry, `none` when that entry is null or has no code field. -/
def firstCode : List (Option Currency) → Option String
  | [] => none
  | c :: _ =>
    match c with
    | none => none
    | some cc => cc.code

/-- `rates_json.get('rates', {}).get(code)` guarded by
`if rates_json and isinstance(rates_json, dict)`. -/
def ratesLookup (rates : Option RateTable) (cd : String) : Option ℚ :=
  match rates with
  | none => none
  | some tbl => List.lookup cd tbl

/-- The currency-handling block of `process_countries` (lines 82-100) for one
valid entity: currency code, exchange rate and estimated GDP.  Python raises
`ZeroDivisionError` on `(population * rand) / 0.0`; that fault is the
`Except.error` branch, and the embedded division is only performed with a
non-zero divisor. -/
def deriveCurrency (currencies : List (Option Currency)) (rates : Option RateTable)
    (pop : Int) (rand : Int) : Except Unit (Option String × Option ℚ × Option ℚ) :=
  match currencies with
  | [] => .ok (none, none, some 0)
  | c0 :: rest =>
    let cd? := firstCode (c0 :: rest)
    let er? : Option ℚ :=
      match cd? with
      | none => none
      | some cd => if cd == "" then none else ratesLookup rates cd
    match er? with
    | none => .ok (cd?, none, none)
    | some r =>
      if r = 0 then .error ()
      else .ok (cd?, some r, some ((pop : ℚ) * (rand : ℚ) / r))

/-- The record dict appended to `processed` for one valid entity. -/
def mkRecord (c : RawCountry) (out : Option String × Option ℚ × Option ℚ)
    (ts : Nat) : ProcRecord :=
  { name := c.name.getD ""
    capital := c.capital
    region := c.region
    population := c.population.getD 0
    currency_code := out.1
    exchange_rate := out.2.1
    estimated_gdp := out.2.2
    flag_url := c.flag
    last_refreshed_at := ts }

/-- The loop of `process_countries` over `enumerate(countries_json)` with the
validation-error dict accumulated so far.  An invalid entity records its
errors and continues; a valid entity runs the currency derivation (whose
`ZeroDivisionError` aborts everything); at the end a non-empty error map
wins over the processed list. -/
def processGo (rates : Option RateTable) (ts : Nat) (rand : Nat → Int) :
    Nat → List RawCountry → List (String × VErr) → ProcResult
  | _, [], errs => if errs.isEmpty then .ok [] else .invalid errs
  | i, c :: rest, errs =>
    if invalidEntity c then
      processGo rates ts rand (i + 1) rest (dictSet errs (errKey i c) (errVal c))
    else
      match deriveCurrency c.currencies rates (c.population.getD 0) (rand i) with
      | .error _ => .fault
      | .ok out =>
        match processGo rates ts rand (i + 1) rest errs with
        | .fault => .fault
        | .invalid e => .invalid e
        | .ok ps => .ok (mkRecord c out ts :: ps)

/-- `process_countries(countries_json, rates_json, refresh_ts)`. -/
def processCountries (countries : List RawCountry) (rates : Option RateTable)
    (ts : Nat) (rand : Nat → Int) : ProcResult :=
  processGo rates ts rand 0 countries []

/-- Python's `str.lower()`: lower-case every character.  (Defined over the
character list so that it is structurally recursive and kernel-computable;
it agrees with the standard library lower-casing.) -/
def strLower (s : String) : String := String.mk (s.data.map Char.toLower)

/-- Case-folded name of a processed record (`rec['name'].lower()`). -/
def fmr (r : ProcRecord) : String := strLower r.name

/-- Case-folded name of a stored row (`func.lower(CountryModel.name)`). -/
def fm (s : StoredCountry) : String := strLower s.name

/-- Case-folded names of the store, in row order. -/
def fms (store : Store) : List String := store.map fm

/-- The update branch of `save_countries`: overwrite every field of the
existing row except `name` (the code assigns all columns but `name`). -/
def overwrite (s : StoredCountry) (r : ProcRecord) : StoredCountry :=
  { s with
    capital := r.capital
    region := r.region
    population := r.population
    currency_code := r.currency_code
    exchange_rate := r.exchange_rate
    estimated_gdp := r.estimated_gdp
    flag_url := r.flag_url
    last_refreshed_at := some r.last_refreshed_at }

/-- The insert branch of `save_countries`: a fresh `CountryModel` row. -/
def toStored (r : ProcRecord) : StoredCountry :=
  { name := r.name
    capital := r.capital
    region := r.region
    population := r.population
    currency_code := r.currency_code
    exchange_rate := r.exchange_rate
    estimated_gdp := r.estimated_gdp
    flag_url := r.flag_url
    last_refreshed_at := some r.last_refreshed_at }

/-- One iteration of the `save_countries` loop: update the first row whose
lower-cased name matches, else append a new row. -/
def upsertOne : Store → ProcRecord → Store
  | [], r => [toStored r]
  | s :: rest, r =>
    if fm s = fmr r then overwrite s r :: rest
    else s :: upsertOne rest r

/-- `save_countries(processed)` run against a store. -/
def saveCountries (recs : List ProcRecord) (store : Store) : Store :=
  recs.foldl upsertOne store

/-- `refresh_countries` (POST /countries/refresh).  Inputs that are external
effects are injected: the fetch outcome, the refresh timestamp, the random
draws, and whether `generate_summary_image` succeeds.  Note that
`save_countries` ends in `db.session.commit()`, so when the image generation
raises, the except-branch's `db.session.rollback()` has nothing left to roll
back: the saved store stands and the handler returns the 500 error body. -/
def refreshCountries (fetched : Option (List RawCountry × Option RateTable))
    (ts : Nat) (rand : Nat → Int) (imageOk : Bool) (store : Store) :
    RefreshResponse × Store :=
  match fetched with
  | none => (.fetchError, store)
  | some (countries, rates) =>
    match processCountries countries rates ts rand with
    | .fault => (.uncaughtFault, store)
    | .invalid errs => (.validationError errs, store)
    | .ok recs =>
      let store' := saveCountries recs store
      if imageOk then (.success store'.length ts, store')
      else (.internalError, store')

/-- `if region:` filter of `list_countries`: active only for a present,
non-empty query parameter; SQL equality on a NULL column never matches. -/
def regionMatch (region : Option String) (s : StoredCountry) : Bool :=
  match region with
  | none => true
  | some r => if r == "" then true else s.region == some r

/-- `if currency:` filter of `list_countries`. -/
def currencyMatch (currency : Option String) (s : StoredCountry) : Bool :=
  match currency with
  | none => true
  | some cd => if cd == "" then true else s.currency_code == some cd

/-- The key order of `estimated_gdp.desc().nulls_last()`: `gdpLe a b` holds
when a row with metric `a` may come no later than a row with metric `b`. -/
def gdpLe : Option ℚ → Option ℚ → Bool
  | _, none => true
  | none, some _ => false
  | some x, some y => decide (y ≤ x)

/-- The row order used by `sort=gdp_desc`. -/
def gdpRel (a b : StoredCountry) : Prop :=
  gdpLe a.estimated_gdp b.estimated_gdp = true

instance : DecidableRel gdpRel := fun _ _ => inferInstanceAs (Decidable (_ = true))

/-- `list_countries` (GET /countries): optional region/currency equality
filters, then `ORDER BY estimated_gdp DESC NULLS LAST` when
`sort == 'gdp_desc'`, embedded as a deterministic sort by that order. -/
def listCountries (region currency sortKey : Option String) (store : Store) :
    List StoredCountry :=
  let filtered := store.filter fun s => regionMatch region s && currencyMatch currency s
  if sortKey == some "gdp_desc" then filtered.insertionSort gdpRel else filtered

/-- Maximum of two optional timestamps, SQL NULL sorting below everything. -/
def tsMax : Option Nat → Option Nat → Option Nat
  | none, b => b
  | some a, none => some a
  | some a, some b => some (max a b)

/-- The timestamp reported by `get_status`: the `last_refreshed_at` of the
first row of `ORDER BY last_refreshed_at DESC` (in SQLite, NULL sorts below
every value, so this is the maximum), or `none` on an empty table. -/
def statusTimestamp (store : Store) : Option Nat :=
  store.foldl (fun acc s => tsMax acc s.last_refreshed_at) none

/-- `get_status` (GET /status): `(total_countries, last_refreshed_at)`. -/
def getStatus (store : Store) : Nat × Option Nat :=
  (store.length, statusTimestamp store)

/-- `delete_country` (DELETE /countries/:name): remove the first row whose
lower-cased name matches; return it (or `none` for the 404 case). -/
def deleteCountry (nm : String) : Store → Option StoredCountry × Store
  | [] => (none, [])
  | s :: rest =>
    if strLower s.name = strLower nm then (some s, rest)
    else
      let res := deleteCountry nm rest
      (res.1, s :: res.2)

/-- Whether `process_countries` returned a record list (did not raise and did
not report validation errors). -/
def procOk : ProcResult → Bool
  | .ok _ => true
  | _ => false

/-- Whether a derivation call returned normally (did not raise). -/
def deriveOk : Except Unit (Option String × Option ℚ × Option ℚ) → Bool
  | .ok _ => true
  | .error _ => false

/-- Whether a refresh response is the 400 validation-failure body. -/
def isValidationResponse : RefreshResponse → Bool
  | .validationError _ => true
  | _ => false

/-! ### Concrete sample inputs (used by counterexamples and witnesses) -/

/-- A fully valid entity whose currency is found in the rate table. -/
def franceRaw : RawCountry :=
  ⟨some "France", some "Paris", some "Europe", some 100, some "f.png",
    [some ⟨some "EUR"⟩]⟩

/-- A valid entity with an empty currency list. -/
def chadRaw : RawCountry :=
  ⟨some "Chad", none, none, some 5, none, []⟩

/-- An invalid entity: `population` absent. -/
def atlantisRaw : RawCountry :=
  ⟨some "Atlantis", none, none, none, none, []⟩

/-- A valid entity whose currency code has rate `0.0` in the rate table
used alongside it. -/
def zedRaw : RawCountry :=
  ⟨some "Zed", none, none, some 10, none, [some ⟨some "XTS"⟩]⟩

/-! ### General lemmas about the refresh pipeline -/

/-- When processing succeeds but the summary-image generation raises, the
handler hits the except-branch after `save_countries` has already committed:
the response is the 500 error and the store is the saved store. -/
theorem refresh_image_failure (countries : List RawCountry) (rates : Option RateTable)
    (ts : Nat) (rand : Nat → Int) (store : Store) (recs : List ProcRecord)
    (h : processCountries countries rates ts rand = ProcResult.ok recs) :
    refreshCountries (some (countries, rates)) ts rand false store =
      (RefreshResponse.internalError, saveCountries recs store) := by
  simp [refreshCountries, h]

/-- When processing succeeds and the image generation also succeeds, the
refresh reports the 200 payload over the saved store. -/
theorem refresh_image_success (countries : List RawCountry) (rates : Option RateTable)
    (ts : Nat) (rand : Nat → Int) (store : Store) (recs : List ProcRecord)
    (h : processCountries countries rates ts rand = ProcResult.ok recs) :
    refreshCountries (some (countries, rates)) ts rand true store =
      (RefreshResponse.success (saveCountries recs store).length ts,
        saveCountries recs store) := by
  simp [refreshCountries, h]

/-! ### Claim C1 -/

/-- Claim C1 (corrected), counterexample: a batch that persists fine but whose
summary-image generation fails.  The refresh does NOT report success — it
returns the 500 `"Internal server error"` body — even though the persisted
record (with its `last_refreshed_at`) remains committed in the store. -/
theorem C1_counterexample :
    (refreshCountries (some ([chadRaw], none)) 5 (fun _ => 1000) false []).1 =
      RefreshResponse.internalError ∧
    RefreshResponse.internalError ≠
      RefreshResponse.success
        ((refreshCountries (some ([chadRaw], none)) 5 (fun _ => 1000) false []).2).length 5 ∧
    (refreshCountries (some ([chadRaw], none)) 5 (fun _ => 1000) false []).2 =
      [⟨"Chad", none, none, 5, none, none, some 0, none, some 5⟩] :=
  ⟨by decide, by decide, by decide⟩

/-- Claim C1 (corrected, amended): if persistence of the refreshed batch
succeeds but the subsequent summary-artifact generation raises, the persisted
records and their `last_refreshed_at` remain committed (the rollback in the
except-branch runs after the commit in `save_countries` and undoes nothing),
but the refresh reports the 500 internal error, not success. -/
theorem C1_amended (countries : List RawCountry) (rates : Option RateTable)
    (ts : Nat) (rand : Nat → Int) (store : Store) (recs : List ProcRecord)
    (h : processCountries countries rates ts rand = ProcResult.ok recs) :
    (refreshCountries (some (countries, rates)) ts rand false store).2 =
      saveCountries recs store ∧
    (refreshCountries (some (countries, rates)) ts rand false store).1 =
      RefreshResponse.internalError := by
  rw [refresh_image_failure countries rates ts rand store recs h]
  exact ⟨rfl, rfl⟩

/-- Witness for C1: the amended statement applied to the concrete
image-failure run of `C1_counterexample`. -/
theorem C1_amended_witness :
    (refreshCountries (some ([chadRaw], none)) 5 (fun _ => 1000) false []).2 =
      saveCountries [⟨"Chad", none, none, 5, none, none, some 0, none, 5⟩] [] ∧
    (refreshCountries (some ([chadRaw], none)) 5 (fun _ => 1000) false []).1 =
      RefreshResponse.internalError :=
  C1_amended [chadRaw] none 5 (fun _ => 1000) []
    [⟨"Chad", none, none, 5, none, none, some 0, none, 5⟩] (by decide)

/-! ### Claim C2 -/

/-- Claim C2 (code_bug): the code only guards against an absent rate
(`if exchange_rate is None`), not a zero one, so an entity whose first
currency code maps to rate `0.0` makes `(population * rand) / exchange_rate`
raise `ZeroDivisionError`: processing faults instead of producing a null
metric, and the whole refresh dies with an uncaught-exception 500. -/
theorem C2_zero_rate_fault :
    deriveCurrency [some ⟨some "XTS"⟩] (some [("XTS", 0)]) 10 1500 =
      Except.error () ∧
    processCountries [zedRaw] (some [("XTS", 0)]) 7 (fun _ => 1500) =
      ProcResult.fault ∧
    refreshCountries (some ([zedRaw], some [("XTS", 0)])) 7 (fun _ => 1500) true [] =
      (RefreshResponse.uncaughtFault, []) :=
  ⟨rfl, by decide, by decide⟩

/-! ### Claim C4 -/

/-- Claim C4 (corrected), counterexample: a valid entity whose first currency
code is present in the rate table with rate `0`.  The claim's second case row
says derivation yields the code, the found rate and a metric, but the code
raises the division fault instead of returning any triple. -/
theorem C4_counterexample :
    deriveCurrency [some ⟨some "ZRR"⟩] (some [("ZRR", 0)]) 50 1000 =
      Except.error () ∧
    deriveOk (deriveCurrency [some ⟨some "ZRR"⟩] (some [("ZRR", 0)]) 50 1000) = false ∧
    ratesLookup (some [("ZRR", 0)]) "ZRR" = some 0 :=
  ⟨rfl, rfl, rfl⟩

/-- Claim C4 (corrected, amended): per valid entity the derivation follows the
case table — an empty currency list yields `(null, null, 0.0)`; a non-empty
list whose first code is a non-empty string present in the rate table with a
NON-ZERO rate yields the code, the rate and `population*rand/rate`; a
non-empty list whose first code misses the rate table (including an
empty-string code, which the truthiness guard never looks up) yields the
code, null rate and null metric; and a zero found rate raises the division
fault instead of following the table. -/
theorem C4_amended (rates : Option RateTable) (pop rand : Int)
    (c0 : Option Currency) (rest : List (Option Currency)) :
    deriveCurrency [] rates pop rand = Except.ok (none, none, some 0) ∧
    (∀ cd r, firstCode (c0 :: rest) = some cd → cd ≠ "" →
      ratesLookup rates cd = some r → r ≠ 0 →
      deriveCurrency (c0 :: rest) rates pop rand =
        Except.ok (some cd, some r, some ((pop : ℚ) * (rand : ℚ) / r))) ∧
    (∀ cd, firstCode (c0 :: rest) = some cd →
      (cd = "" ∨ ratesLookup rates cd = none) →
      deriveCurrency (c0 :: rest) rates pop rand = Except.ok (some cd, none, none)) ∧
    (∀ cd r, firstCode (c0 :: rest) = some cd → cd ≠ "" →
      ratesLookup rates cd = some r → r = 0 →
      deriveCurrency (c0 :: rest) rates pop rand = Except.error ()) := by
  refine ⟨rfl, ?_, ?_, ?_⟩
  · intro cd r hcd hne hr hz
    simp [deriveCurrency, hcd, hne, hr, hz]
  · intro cd hcd hmiss
    rcases hmiss with he | hn
    · subst he
      simp [deriveCurrency, hcd]
    · by_cases he : cd = ""
      · subst he
        simp [deriveCurrency, hcd]
      · simp [deriveCurrency, hcd, he, hn]
  · intro cd r hcd hne hr hz
    subst hz
    simp [deriveCurrency, hcd, hne, hr]

/-- Witness for C4: the four cases instantiated on concrete inputs — empty
list, code `"EUR"` at rate `2`, a code absent from the table, and the zero
rate `"ZRA"`. -/
theorem C4_amended_witness :
    (deriveCurrency [] (some [("EUR", 2)]) 100 1000 = Except.ok (none, none, some 0)) ∧
    deriveCurrency [some ⟨some "EUR"⟩] (some [("EUR", 2)]) 100 1000 =
      Except.ok (some "EUR", some 2, some ((100 : ℚ) * (1000 : ℚ) / 2)) ∧
    deriveCurrency [some ⟨some "ZZZ"⟩] (some [("EUR", 2)]) 100 1000 =
      Except.ok (some "ZZZ", none, none) ∧
    deriveCurrency [some ⟨some "ZRA"⟩] (some [("ZRA", 0)]) 100 1000 =
      Except.error () := by
  refine ⟨(C4_amended (some [("EUR", 2)]) 100 1000 none []).1, ?_, ?_, ?_⟩
  · exact (C4_amended (some [("EUR", 2)]) 100 1000 (some ⟨some "EUR"⟩) []).2.1
      "EUR" 2 rfl (by decide) rfl (by norm_num)
  · exact (C4_amended (some [("EUR", 2)]) 100 1000 (some ⟨some "ZZZ"⟩) []).2.2.1
      "ZZZ" rfl (Or.inr rfl)
  · exact (C4_amended (some [("ZRA", 0)]) 100 1000 (some ⟨some "ZRA"⟩) []).2.2.2
      "ZRA" 0 rfl (by decide) rfl rfl

/-! ### Claim C10 -/

/-- Claim C10 (confirmed): a valid entity with a non-empty currency list whose
first entry is null or lacks a `code` field derives
`currency_code = null, exchange_rate = null, estimated_gdp = null` — a fourth
outcome beside the spec's three case-table rows. -/
theorem C10_missing_code (c0 : Option Currency) (rest : List (Option Currency))
    (rates : Option RateTable) (pop rand : Int)
    (h : firstCode (c0 :: rest) = none) :
    deriveCurrency (c0 :: rest) rates pop rand = Except.ok (none, none, none) := by
  simp [deriveCurrency, h]

/-- Witness for C10: a first currency entry `{}` (no `code` field) and a
first currency entry that is JSON `null`. -/
theorem C10_missing_code_witness :
    deriveCurrency [some ⟨none⟩] (some [("EUR", 2)]) 3 1000 =
      Except.ok (none, none, none) ∧
    deriveCurrency [none, some ⟨some "EUR"⟩] (some [("EUR", 2)]) 3 1000 =
      Except.ok (none, none, none) :=
  ⟨C10_missing_code (some ⟨none⟩) [] (some [("EUR", 2)]) 3 1000 rfl,
    C10_missing_code none [some ⟨some "EUR"⟩] (some [("EUR", 2)]) 3 1000 rfl⟩

/-! ### Claim C9 -/

theorem tsMax_eq_none {a b : Option Nat} :
    tsMax a b = none ↔ a = none ∧ b = none := by
  cases a <;> cases b <;> simp [tsMax]

theorem tsMax_eq_some {a b : Option Nat} {t : Nat} (h : tsMax a b = some t) :
    a = some t ∨ b = some t := by
  cases a with
  | none => cases b <;> simp_all [tsMax]
  | some x =>
    cases b with
    | none =>
      simp [tsMax] at h
      exact Or.inl (by simp [h])
    | some y =>
      simp [tsMax] at h
      rcases max_choice x y with hm | hm
      · exact Or.inl (by rw [← h, hm])
      · exact Or.inr (by rw [← h, hm])

theorem tsMax_left_le {a b : Option Nat} {u : Nat} (h : a = some u) :
    ∃ w, tsMax a b = some w ∧ u ≤ w := by
  subst h
  cases b with
  | none => exact ⟨u, rfl, le_refl u⟩
  | some v => exact ⟨max u v, rfl, le_max_left u v⟩

theorem tsMax_right_le {a b : Option Nat} {u : Nat} (h : b = some u) :
    ∃ w, tsMax a b = some w ∧ u ≤ w := by
  subst h
  cases a with
  | none => exact ⟨u, rfl, le_refl u⟩
  | some v => exact ⟨max v u, rfl, le_max_right v u⟩

theorem statusFold_some_le (store : Store) :
    ∀ (acc : Option Nat) (t : Nat),
      store.foldl (fun a s => tsMax a s.last_refreshed_at) acc = some t →
      (∀ u, acc = some u → u ≤ t) ∧
      (∀ s ∈ store, ∀ u, s.last_refreshed_at = some u → u ≤ t) := by
  induction store with
  | nil =>
    intro acc t h
    simp only [List.foldl_nil] at h
    exact ⟨fun u hu => by simp [hu] at h; simp [h], by simp⟩
  | cons s rest ih =>
    intro acc t h
    simp only [List.foldl_cons] at h
    obtain ⟨h1, h2⟩ := ih (tsMax acc s.last_refreshed_at) t h
    constructor
    · intro u hu
      obtain ⟨w, hw, huw⟩ := tsMax_left_le (b := s.last_refreshed_at) hu
      exact le_trans huw (h1 w hw)
    · intro s' hs' u hu
      rcases List.mem_cons.mp hs' with he | hm
      · subst he
        obtain ⟨w, hw, huw⟩ := tsMax_right_le (a := acc) hu
        exact le_trans huw (h1 w hw)
      · exact h2 s' hm u hu

theorem statusFold_some_mem (store : Store) :
    ∀ (acc : Option Nat) (t : Nat),
      store.foldl (fun a s => tsMax a s.last_refreshed_at) acc = some t →
      acc = some t ∨ ∃ s ∈ store, s.last_refreshed_at = some t := by
  induction store with
  | nil =>
    intro acc t h
    simp only [List.foldl_nil] at h
    exact Or.inl h
  | cons s rest ih =>
    intro acc t h
    simp only [List.foldl_cons] at h
    rcases ih (tsMax acc s.last_refreshed_at) t h with hacc | ⟨s', hs', hts⟩
    · rcases tsMax_eq_some hacc with ha | hb
      · exact Or.inl ha
      · exact Or.inr ⟨s, List.mem_cons_self s rest, hb⟩
    · exact Or.inr ⟨s', List.mem_cons_of_mem s hs', hts⟩

theorem statusFold_reaches (store : Store) :
    ∀ (acc : Option Nat) (u : Nat),
      (acc = some u ∨ ∃ s ∈ store, s.last_refreshed_at = some u) →
      ∃ t, store.foldl (fun a s => tsMax a s.last_refreshed_at) acc = some t ∧ u ≤ t := by
  induction store with
  | nil =>
    intro acc u h
    simp only [List.foldl_nil]
    rcases h with h | ⟨s, hs, _⟩
    · exact ⟨u, h, le_refl u⟩
    · exact absurd hs (List.not_mem_nil s)
  | cons s rest ih =>
    intro acc u h
    simp only [List.foldl_cons]
    rcases h with hacc | ⟨s', hs', hts⟩
    · obtain ⟨w, hw, huw⟩ := tsMax_left_le (b := s.last_refreshed_at) hacc
      obtain ⟨t, ht, hwt⟩ := ih (tsMax acc s.last_refreshed_at) w (Or.inl hw)
      exact ⟨t, ht, le_trans huw hwt⟩
    · rcases List.mem_cons.mp hs' with he | hm
      · obtain ⟨w, hw, huw⟩ := tsMax_right_le (a := acc) (he ▸ hts)
        obtain ⟨t, ht, hwt⟩ := ih (tsMax acc s.last_refreshed_at) w (Or.inl hw)
        exact ⟨t, ht, le_trans huw hwt⟩
      · exact ih (tsMax acc s.last_refreshed_at) u (Or.inr ⟨s', hm, hts⟩)

/-- Claim C9 (confirmed): `get_status` reports the total stored-record count
together with the maximum `last_refreshed_at` across all stored records —
the reported timestamp is attained by some record and dominates every
record's timestamp, every stored timestamp forces a reported one at least as
large, and an empty (never refreshed) store reports `null`. -/
theorem C9_status (store : Store) :
    (getStatus store).1 = store.length ∧
    (store = [] → (getStatus store).2 = none) ∧
    (∀ t, (getStatus store).2 = some t →
      (∃ s ∈ store, s.last_refreshed_at = some t) ∧
      ∀ s ∈ store, ∀ u, s.last_refreshed_at = some u → u ≤ t) ∧
    (∀ s ∈ store, ∀ u, s.last_refreshed_at = some u →
      ∃ t, (getStatus store).2 = some t ∧ u ≤ t) := by
  refine ⟨rfl, ?_, ?_, ?_⟩
  · rintro rfl
    rfl
  · intro t ht
    constructor
    · rcases statusFold_some_mem store none t ht with hnone | hmem
      · exact absurd hnone (by simp)
      · exact hmem
    · exact (statusFold_some_le store none t ht).2
  · intro s hs u hu
    exact statusFold_reaches store none u (Or.inr ⟨s, hs, hu⟩)

/-- Witness for C9: the status of the empty store and of the one-row store
`[franceRow]` (timestamp 1). -/
theorem C9_status_witness :
    (getStatus []).2 = none ∧
    (getStatus [⟨"France", some "Paris", some "Europe", 100, some "EUR", some 2,
      some 50000, some "f.png", some 1⟩]).1 = 1 ∧
    ∃ t, (getStatus [⟨"France", some "Paris", some "Europe", 100, some "EUR",
      some 2, some 50000, some "f.png", some 1⟩]).2 = some t ∧ 1 ≤ t :=
  ⟨(C9_status []).2.1 rfl,
    (C9_status [⟨"France", some "Paris", some "Europe", 100, some "EUR", some 2,
      some 50000, some "f.png", some 1⟩]).1,
    (C9_status [⟨"France", some "Paris", some "Europe", 100, some "EUR", some 2,
      some 50000, some "f.png", some 1⟩]).2.2.2
      ⟨"France", some "Paris", some "Europe", 100, some "EUR", some 2,
        some 50000, some "f.png", some 1⟩
      (List.mem_singleton.mpr rfl) 1 rfl⟩

/-! ### Claim C6 -/

/-- The §3 invariant, as amended, on a stored row: a non-null metric forces a
non-null rate unless the metric is the `0.0` of the empty-currency case. -/
def metricInv (s : StoredCountry) : Prop :=
  s.estimated_gdp ≠ none → s.exchange_rate ≠ none ∨ s.estimated_gdp = some 0

/-- The same invariant on a processed record. -/
def recMetricInv (r : ProcRecord) : Prop :=
  r.estimated_gdp ≠ none → r.exchange_rate ≠ none ∨ r.estimated_gdp = some 0

theorem deriveCurrency_inv (cur : List (Option Currency)) (rates : Option RateTable)
    (pop rand : Int) (cc : Option String) (er g : Option ℚ)
    (h : deriveCurrency cur rates pop rand = Except.ok (cc, er, g)) :
    (g ≠ none → er ≠ none ∨ g = some 0) ∧
    (cc = none → cur = [] ∨ firstCode cur = none) := by
  cases cur with
  | nil =>
    simp [deriveCurrency] at h
    obtain ⟨h1, h2, h3⟩ := h
    exact ⟨fun _ => Or.inr h3.symm, fun _ => Or.inl rfl⟩
  | cons c0 rest =>
    simp only [deriveCurrency] at h
    cases hcd : firstCode (c0 :: rest) with
    | none =>
      rw [hcd] at h
      simp at h
      obtain ⟨h1, h2, h3⟩ := h
      exact ⟨fun hg => by simp_all, fun _ => Or.inr rfl⟩
    | some cd =>
      rw [hcd] at h
      by_cases he : cd = ""
      · simp [he] at h
        obtain ⟨h1, h2, h3⟩ := h
        exact ⟨fun hg => by simp_all, fun hcc => by simp [hcc] at h1⟩
      · simp [he] at h
        cases hr : ratesLookup rates cd with
        | none =>
          rw [hr] at h
          simp at h
          obtain ⟨h1, h2, h3⟩ := h
          exact ⟨fun hg => by simp_all, fun hcc => by simp [hcc] at h1⟩
        | some r =>
          rw [hr] at h
          by_cases hz : r = 0
          · simp [hz] at h
          · simp [hz] at h
            obtain ⟨h1, h2, h3⟩ := h
            exact ⟨fun _ => Or.inl (by rw [← h2]; simp),
              fun hcc => by simp [hcc] at h1⟩

theorem processGo_ok_inv (rates : Option RateTable) (ts : Nat) (rand : Nat → Int) :
    ∀ (cs : List RawCountry) (i : Nat) (errs : List (String × VErr))
      (recs : List ProcRecord),
      processGo rates ts rand i cs errs = ProcResult.ok recs →
      ∀ r ∈ recs, recMetricInv r := by
  intro cs
  induction cs with
  | nil =>
    intro i errs recs h r hr
    simp only [processGo] at h
    split at h
    · cases h
      exact absurd hr (List.not_mem_nil r)
    · cases h
  | cons c rest ih =>
    intro i errs recs h r hr
    simp only [processGo] at h
    split at h
    · exact ih _ _ _ h r hr
    · cases hd : deriveCurrency c.currencies rates (c.population.getD 0) (rand i) with
      | error e =>
        rw [hd] at h
        cases h
      | ok out =>
        rw [hd] at h
        cases hp : processGo rates ts rand (i + 1) rest errs with
        | fault => rw [hp] at h; cases h
        | invalid e => rw [hp] at h; cases h
        | ok ps =>
          rw [hp] at h
          cases h
          rcases List.mem_cons.mp hr with he | hm
          · subst he
            obtain ⟨cc, er, g⟩ := out
            intro hg
            exact (deriveCurrency_inv c.currencies rates (c.population.getD 0)
              (rand i) cc er g hd).1 hg
          · exact ih _ _ _ hp r hm

theorem upsertOne_inv (r : ProcRecord) (hr : recMetricInv r) :
    ∀ store : Store, (∀ s ∈ store, metricInv s) →
      ∀ s ∈ upsertOne store r, metricInv s := by
  intro store
  induction store with
  | nil =>
    intro _ s hmem
    simp [upsertOne] at hmem
    subst hmem
    exact hr
  | cons s0 rest ih =>
    intro hs s hmem
    simp only [upsertOne] at hmem
    by_cases hc : fm s0 = fmr r
    · rw [if_pos hc] at hmem
      rcases List.mem_cons.mp hmem with he | hm
      · subst he
        exact hr
      · exact hs s (List.mem_cons_of_mem s0 hm)
    · rw [if_neg hc] at hmem
      rcases List.mem_cons.mp hmem with he | hm
      · rw [he]
        exact hs s0 (List.mem_cons_self s0 rest)
      · exact ih (fun s' h' => hs s' (List.mem_cons_of_mem s0 h')) s hm

theorem saveCountries_inv (recs : List ProcRecord) :
    ∀ store : Store, (∀ s ∈ store, metricInv s) → (∀ r ∈ recs, recMetricInv r) →
      ∀ s ∈ saveCountries recs store, metricInv s := by
  induction recs with
  | nil =>
    intro store hs _ s hmem
    exact hs s hmem
  | cons r rs ih =>
    intro store hs hr s hmem
    simp only [saveCountries, List.foldl_cons] at hmem
    exact ih (upsertOne store r)
      (upsertOne_inv r (hr r (List.mem_cons_self r rs)) store hs)
      (fun r' h' => hr r' (List.mem_cons_of_mem r h')) s hmem

/-- Claim C6 (corrected), counterexample: an entity with an empty currency
list is stored with `estimated_gdp = 0.0` (non-null) while
`exchange_rate` is null, so "metric non-null only when rate non-null" fails
on the code (and on the spec's own §4.3 case table). -/
theorem C6_counterexample :
    (refreshCountries (some ([chadRaw], none)) 5 (fun _ => 1000) true []).2 =
      [⟨"Chad", none, none, 5, none, none, some 0, none, some 5⟩] ∧
    some (0 : ℚ) ≠ (none : Option ℚ) :=
  ⟨by decide, by decide⟩

/-- Claim C6 (corrected, amended): for every record stored by a successful
refresh, a non-null `estimated_gdp` forces a non-null `exchange_rate` OR the
metric is the `0.0` produced for an empty currency list; and `currency_code`
is null only when the entity carried no usable currency information — an
empty currency list or a first entry without a code. -/
theorem C6_amended (countries : List RawCountry) (rates : Option RateTable)
    (ts : Nat) (rand : Nat → Int) (store : Store) (recs : List ProcRecord)
    (h : processCountries countries rates ts rand = ProcResult.ok recs)
    (hstore : ∀ s ∈ store, metricInv s) :
    (∀ s ∈ saveCountries recs store, metricInv s) ∧
    (∀ (cur : List (Option Currency)) (pop rand' : Int)
      (cc : Option String) (er g : Option ℚ),
      deriveCurrency cur rates pop rand' = Except.ok (cc, er, g) →
      cc = none → cur = [] ∨ firstCode cur = none) := by
  constructor
  · exact saveCountries_inv recs store hstore
      (processGo_ok_inv rates ts rand countries 0 [] recs h)
  · intro cur pop rand' cc er g hd hcc
    exact (deriveCurrency_inv cur rates pop rand' cc er g hd).2 hcc

/-- Witness for C6: the amended invariant on the concrete store produced by
refreshing the empty-currency entity into an empty store. -/
theorem C6_amended_witness :
    (∀ s ∈ saveCountries [⟨"Chad", none, none, 5, none, none, some 0, none, 5⟩] [],
      metricInv s) ∧
    (∀ (cur : List (Option Currency)) (pop rand' : Int)
      (cc : Option String) (er g : Option ℚ),
      deriveCurrency cur (none : Option RateTable) pop rand' = Except.ok (cc, er, g) →
      cc = none → cur = [] ∨ firstCode cur = none) :=
  C6_amended [chadRaw] none 5 (fun _ => 1000) []
    [⟨"Chad", none, none, 5, none, none, some 0, none, 5⟩] (by decide)
    (fun s hs => absurd hs (List.not_mem_nil s))

/-! ### Claim C8 -/

theorem gdpLe_total (x y : Option ℚ) : gdpLe x y = true ∨ gdpLe y x = true := by
  cases x <;> cases y <;> simp [gdpLe]
  exact le_total _ _

theorem gdpLe_trans {x y z : Option ℚ} (h1 : gdpLe x y = true)
    (h2 : gdpLe y z = true) : gdpLe x z = true := by
  cases x <;> cases y <;> cases z <;> simp_all [gdpLe]
  exact le_trans h2 h1

instance : IsTotal StoredCountry gdpRel :=
  ⟨fun a b => gdpLe_total a.estimated_gdp b.estimated_gdp⟩

instance : IsTrans StoredCountry gdpRel :=
  ⟨fun _ _ _ h1 h2 => gdpLe_trans h1 h2⟩

/-- Claim C8 (confirmed): listing with `sort=gdp_desc` keeps every record (the
result is a permutation of the stored rows, nulls included), orders them by
the descending-metric nulls-last relation, and on any three records carrying
metrics `[50, null, 10]` returns metrics `[50, 10, null]`. -/
theorem C8_sort_nulls_last (store : Store) (a b c : StoredCountry)
    (ha : a.estimated_gdp = some 50) (hb : b.estimated_gdp = none)
    (hc : c.estimated_gdp = some 10) :
    (listCountries none none (some "gdp_desc") store).Perm store ∧
    List.Sorted gdpRel (listCountries none none (some "gdp_desc") store) ∧
    (listCountries none none (some "gdp_desc") [a, b, c]).map
      StoredCountry.estimated_gdp = [some 50, some 10, none] := by
  have hfilter : ∀ st : Store,
      st.filter (fun s => regionMatch none s && currencyMatch none s) = st :=
    fun st => List.filter_eq_self.mpr (fun s _ => rfl)
  refine ⟨?_, ?_, ?_⟩
  · simp only [listCountries, hfilter, if_pos]
    exact List.perm_insertionSort gdpRel store
  · simp only [listCountries, hfilter, if_pos]
    exact List.sorted_insertionSort gdpRel store
  · simp [listCountries, hfilter, List.insertionSort, List.orderedInsert,
      gdpRel, gdpLe, ha, hb, hc]
    rw [if_pos (by norm_num)]
    simp [ha, hb, hc]

/-- Witness for C8: the metric column of the sorted listing of three concrete
rows stored in the order `[null, 10, 50]`. -/
theorem C8_sort_witness :
    (listCountries none none (some "gdp_desc")
      [⟨"B", none, none, 1, none, none, none, none, none⟩,
        ⟨"C", none, none, 1, none, none, some 10, none, none⟩,
        ⟨"A", none, none, 1, none, none, some 50, none, none⟩]).Perm
      [⟨"B", none, none, 1, none, none, none, none, none⟩,
        ⟨"C", none, none, 1, none, none, some 10, none, none⟩,
        ⟨"A", none, none, 1, none, none, some 50, none, none⟩] ∧
    List.Sorted gdpRel (listCountries none none (some "gdp_desc")
      [⟨"B", none, none, 1, none, none, none, none, none⟩,
        ⟨"C", none, none, 1, none, none, some 10, none, none⟩,
        ⟨"A", none, none, 1, none, none, some 50, none, none⟩]) ∧
    (listCountries none none (some "gdp_desc")
      [⟨"A", none, none, 1, none, none, some 50, none, none⟩,
        ⟨"B", none, none, 1, none, none, none, none, none⟩,
        ⟨"C", none, none, 1, none, none, some 10, none, none⟩]).map
      StoredCountry.estimated_gdp = [some 50, some 10, none] := by
  refine ⟨?_, ?_, ?_⟩
  · exact (C8_sort_nulls_last
      [⟨"B", none, none, 1, none, none, none, none, none⟩,
        ⟨"C", none, none, 1, none, none, some 10, none, none⟩,
        ⟨"A", none, none, 1, none, none, some 50, none, none⟩]
      ⟨"A", none, none, 1, none, none, some 50, none, none⟩
      ⟨"B", none, none, 1, none, none, none, none, none⟩
      ⟨"C", none, none, 1, none, none, some 10, none, none⟩ rfl rfl rfl).1
  · exact (C8_sort_nulls_last
      [⟨"B", none, none, 1, none, none, none, none, none⟩,
        ⟨"C", none, none, 1, none, none, some 10, none, none⟩,
        ⟨"A", none, none, 1, none, none, some 50, none, none⟩]
      ⟨"A", none, none, 1, none, none, some 50, none, none⟩
      ⟨"B", none, none, 1, none, none, none, none, none⟩
      ⟨"C", none, none, 1, none, none, some 10, none, none⟩ rfl rfl rfl).2.1
  · exact (C8_sort_nulls_last
      [⟨"B", none, none, 1, none, none, none, none, none⟩,
        ⟨"C", none, none, 1, none, none, some 10, none, none⟩,
        ⟨"A", none, none, 1, none, none, some 50, none, none⟩]
      ⟨"A", none, none, 1, none, none, some 50, none, none⟩
      ⟨"B", none, none, 1, none, none, none, none, none⟩
      ⟨"C", none, none, 1, none, none, some 10, none, none⟩ rfl rfl rfl).2.2

/-! ### Claim C3 -/

theorem dictSet_ne_nil (m : List (String × VErr)) (k : String) (v : VErr) :
    dictSet m k v ≠ [] := by
  cases m with
  | nil => simp [dictSet]
  | cons p rest =>
    obtain ⟨k', v'⟩ := p
    simp only [dictSet]
    split <;> simp

theorem dictSet_mem {m : List (String × VErr)} {k : String} {v : VErr}
    {e : String × VErr} (h : e ∈ dictSet m k v) : e = (k, v) ∨ e ∈ m := by
  induction m with
  | nil =>
    simp [dictSet] at h
    exact Or.inl h
  | cons p rest ih =>
    obtain ⟨k', v'⟩ := p
    simp only [dictSet] at h
    split at h
    · rcases List.mem_cons.mp h with he | hm
      · exact Or.inl he
      · exact Or.inr (List.mem_cons_of_mem _ hm)
    · rcases List.mem_cons.mp h with he | hm
      · exact Or.inr (he ▸ List.mem_cons_self _ _)
      · rcases ih hm with h1 | h2
        · exact Or.inl h1
        · exact Or.inr (List.mem_cons_of_mem _ h2)

theorem processGo_ne_ok_of_errs (rates : Option RateTable) (ts : Nat)
    (rand : Nat → Int) :
    ∀ (cs : List RawCountry) (i : Nat) (errs : List (String × VErr)),
      errs ≠ [] → ∀ recs, processGo rates ts rand i cs errs ≠ ProcResult.ok recs := by
  intro cs
  induction cs with
  | nil =>
    intro i errs hne recs h
    cases errs with
    | nil => exact hne rfl
    | cons p ps => simp [processGo] at h
  | cons c rest ih =>
    intro i errs hne recs h
    simp only [processGo] at h
    split at h
    · exact ih _ _ (dictSet_ne_nil errs _ _) recs h
    · cases hd : deriveCurrency c.currencies rates (c.population.getD 0) (rand i) with
      | error e =>
        rw [hd] at h
        cases h
      | ok out =>
        rw [hd] at h
        cases hp : processGo rates ts rand (i + 1) rest errs with
        | fault => rw [hp] at h; cases h
        | invalid e => rw [hp] at h; cases h
        | ok ps => exact ih _ _ hne ps hp

theorem processGo_ne_ok_of_invalid (rates : Option RateTable) (ts : Nat)
    (rand : Nat → Int) :
    ∀ cs : List RawCountry, (∃ c ∈ cs, invalidEntity c = true) →
      ∀ (i : Nat) (errs : List (String × VErr)) (recs : List ProcRecord),
        processGo rates ts rand i cs errs ≠ ProcResult.ok recs := by
  intro cs
  induction cs with
  | nil =>
    rintro ⟨c, hc, _⟩
    exact absurd hc (List.not_mem_nil c)
  | cons c0 rest ih =>
    rintro ⟨c, hc, hinv⟩ i errs recs h
    simp only [processGo] at h
    by_cases h0 : invalidEntity c0 = true
    · rw [if_pos h0] at h
      exact processGo_ne_ok_of_errs rates ts rand rest (i + 1) _
        (dictSet_ne_nil errs _ _) recs h
    · rw [if_neg h0] at h
      have hcrest : c ∈ rest := by
        rcases List.mem_cons.mp hc with he | hm
        · exact absurd (he ▸ hinv) h0
        · exact hm
      cases hd : deriveCurrency c0.currencies rates (c0.population.getD 0) (rand i) with
      | error e =>
        rw [hd] at h
        cases h
      | ok out =>
        rw [hd] at h
        cases hp : processGo rates ts rand (i + 1) rest errs with
        | fault => rw [hp] at h; cases h
        | invalid e => rw [hp] at h; cases h
        | ok ps => exact ih ⟨c, hcrest, hinv⟩ (i + 1) errs ps hp

theorem processGo_invalid_ne_nil (rates : Option RateTable) (ts : Nat)
    (rand : Nat → Int) :
    ∀ (cs : List RawCountry) (i : Nat) (errsAcc errs : List (String × VErr)),
      processGo rates ts rand i cs errsAcc = ProcResult.invalid errs →
      errs ≠ [] := by
  intro cs
  induction cs with
  | nil =>
    intro i errsAcc errs h
    cases errsAcc with
    | nil => simp [processGo] at h
    | cons p ps =>
      simp [processGo] at h
      rw [← h]
      simp
  | cons c rest ih =>
    intro i errsAcc errs h
    simp only [processGo] at h
    split at h
    · exact ih _ _ _ h
    · cases hd : deriveCurrency c.currencies rates (c.population.getD 0) (rand i) with
      | error e =>
        rw [hd] at h
        cases h
      | ok out =>
        rw [hd] at h
        cases hp : processGo rates ts rand (i + 1) rest errsAcc with
        | fault => rw [hp] at h; cases h
        | invalid e =>
          rw [hp] at h
          cases h
          exact ih _ _ _ hp
        | ok ps => rw [hp] at h; cases h

/-- The property every entry of the final validation-error map satisfies:
it is keyed by `name or index_<k>` of an offending entity at index `k` of
the batch, and its value flags exactly the missing required fields. -/
def errEntryOk (countries : List RawCountry) (e : String × VErr) : Prop :=
  ∃ k c, countries[k]? = some c ∧ invalidEntity c = true ∧
    e.1 = errKey k c ∧ e.2 = errVal c

theorem processGo_invalid_entries (countries : List RawCountry)
    (rates : Option RateTable) (ts : Nat) (rand : Nat → Int) :
    ∀ (cs : List RawCountry) (i : Nat) (errsAcc errs : List (String × VErr)),
      (∀ (j : Nat) (c : RawCountry), cs[j]? = some c → countries[i + j]? = some c) →
      (∀ e ∈ errsAcc, errEntryOk countries e) →
      processGo rates ts rand i cs errsAcc = ProcResult.invalid errs →
      ∀ e ∈ errs, errEntryOk countries e := by
  intro cs
  induction cs with
  | nil =>
    intro i errsAcc errs _ hacc h
    cases errsAcc with
    | nil => simp [processGo] at h
    | cons p ps =>
      simp [processGo] at h
      rw [← h]
      exact hacc
  | cons c0 rest ih =>
    intro i errsAcc errs hsuffix hacc h
    simp only [processGo] at h
    have hsuffix' : ∀ (j : Nat) (c : RawCountry), rest[j]? = some c →
        countries[(i + 1) + j]? = some c := by
      intro j c hj
      have := hsuffix (j + 1) c (by simpa using hj)
      simpa [Nat.add_assoc, Nat.add_comm 1 j] using this
    split at h
    · refine ih (i + 1) _ errs hsuffix' ?_ h
      intro e he
      rcases dictSet_mem he with he1 | he2
      · refine ⟨i, c0, ?_, by assumption, by rw [he1], by rw [he1]⟩
        have := hsuffix 0 c0 (by simp)
        simpa using this
      · exact hacc e he2
    · cases hd : deriveCurrency c0.currencies rates (c0.population.getD 0) (rand i) with
      | error e0 =>
        rw [hd] at h
        cases h
      | ok out =>
        rw [hd] at h
        cases hp : processGo rates ts rand (i + 1) rest errsAcc with
        | fault => rw [hp] at h; cases h
        | invalid e0 =>
          rw [hp] at h
          cases h
          exact ih (i + 1) _ _ hsuffix' hacc hp
        | ok ps => rw [hp] at h; cases h

/-- Claim C3 (corrected), counterexample: a batch containing an invalid
entity (no population) AND a valid entity whose currency has rate `0.0`.
The claim says the refresh returns a non-empty error map; instead the
`ZeroDivisionError` escapes `process_countries` before the validation check
can report, and the refresh dies with the uncaught-exception 500 — only the
"persists nothing" half survives (the store is unchanged). -/
theorem C3_counterexample :
    refreshCountries (some ([atlantisRaw, zedRaw], some [("XTS", 0)])) 3
        (fun _ => 1200) true [] = (RefreshResponse.uncaughtFault, []) ∧
    isValidationResponse
      (refreshCountries (some ([atlantisRaw, zedRaw], some [("XTS", 0)])) 3
        (fun _ => 1200) true []).1 = false ∧
    invalidEntity atlantisRaw = true :=
  ⟨by decide, by decide, by decide⟩

/-- Claim C3 (corrected, amended): for every batch containing an entity with
a missing/empty name or an absent population, PROVIDED processing raises no
division fault (the zero-rate `ZeroDivisionError` of C2 can pre-empt the
validation report), the refresh returns the 400 response with a non-empty
error map — keyed by the entity's name when present (else `index_<i>`), each
value flagging exactly which of name/population was missing — and persists
nothing: the store after the failed refresh is the store before it. -/
theorem C3_amended (countries : List RawCountry) (rates : Option RateTable)
    (ts : Nat) (rand : Nat → Int) (imageOk : Bool) (store : Store)
    (hbad : ∃ c ∈ countries, invalidEntity c = true)
    (hnf : processCountries countries rates ts rand ≠ ProcResult.fault) :
    ∃ errs, refreshCountries (some (countries, rates)) ts rand imageOk store =
        (RefreshResponse.validationError errs, store) ∧
      errs ≠ [] ∧ ∀ e ∈ errs, errEntryOk countries e := by
  cases hproc : processCountries countries rates ts rand with
  | fault => exact absurd hproc hnf
  | ok recs =>
    exact absurd hproc (processGo_ne_ok_of_invalid rates ts rand countries hbad 0 [] recs)
  | invalid errs =>
    refine ⟨errs, by simp [refreshCountries, hproc], ?_, ?_⟩
    · exact processGo_invalid_ne_nil rates ts rand countries 0 [] errs hproc
    · exact processGo_invalid_entries countries rates ts rand countries 0 [] errs
        (fun j c hj => by simpa using hj) (by simp) hproc

/-- Witness for C3: the amended statement applied to a concrete two-entity
batch whose first entity lacks a population, refreshed against a one-row
store that is left untouched. -/
theorem C3_amended_witness :
    ∃ errs, refreshCountries (some ([atlantisRaw, chadRaw], none)) 3
        (fun _ => 1200) true
        [⟨"Keep", none, none, 1, none, none, none, none, some 1⟩] =
      (RefreshResponse.validationError errs,
        [⟨"Keep", none, none, 1, none, none, none, none, some 1⟩]) ∧
      errs ≠ [] ∧ ∀ e ∈ errs, errEntryOk [atlantisRaw, chadRaw] e :=
  C3_amended [atlantisRaw, chadRaw] none 3 (fun _ => 1200) true
    [⟨"Keep", none, none, 1, none, none, none, none, some 1⟩]
    ⟨atlantisRaw, by decide, by decide⟩ (by decide)

/-! ### Structural lemmas about `save_countries` upserts -/

theorem map_eq_self_of_forall {α : Type} (f : α → α) :
    ∀ l : List α, (∀ x ∈ l, f x = x) → l.map f = l := by
  intro l
  induction l with
  | nil => intro _; rfl
  | cons x xs ih =>
    intro h
    simp only [List.map_cons]
    rw [h x (List.mem_cons_self x xs), ih (fun y hy => h y (List.mem_cons_of_mem x hy))]

theorem fm_overwrite (s : StoredCountry) (r : ProcRecord) :
    fm (overwrite s r) = fm s := rfl

theorem fm_toStored (r : ProcRecord) : fm (toStored r) = fmr r := rfl

theorem overwrite_overwrite (s : StoredCountry) (r r' : ProcRecord) :
    overwrite (overwrite s r) r' = overwrite s r' := rfl

theorem overwrite_toStored (r : ProcRecord) :
    overwrite (toStored r) r = toStored r := rfl

theorem fms_cons (s : StoredCountry) (rest : Store) :
    fms (s :: rest) = fm s :: fms rest := rfl

/-- The in-place field update `save_countries` performs on a matching row. -/
def pointUpdate (r : ProcRecord) (s : StoredCountry) : StoredCountry :=
  if fm s = fmr r then overwrite s r else s

theorem fm_pointUpdate (r : ProcRecord) (s : StoredCountry) :
    fm (pointUpdate r s) = fm s := by
  unfold pointUpdate
  split <;> rfl

theorem upsertOne_eq_map (r : ProcRecord) :
    ∀ store : Store, (fms store).Nodup → fmr r ∈ fms store →
      upsertOne store r = store.map (pointUpdate r) := by
  intro store
  induction store with
  | nil =>
    intro _ hmem
    exact absurd hmem (List.not_mem_nil _)
  | cons s0 rest ih =>
    intro hnd hmem
    rw [fms_cons] at hnd hmem
    simp only [upsertOne, List.map_cons]
    by_cases hc : fm s0 = fmr r
    · rw [if_pos hc]
      have hrest : rest.map (pointUpdate r) = rest := by
        refine map_eq_self_of_forall _ rest (fun s hs => ?_)
        unfold pointUpdate
        rw [if_neg]
        intro hfm
        exact (List.nodup_cons.mp hnd).1
          (by rw [hc, ← hfm]; exact List.mem_map_of_mem fm hs)
      rw [hrest]
      congr 1
      unfold pointUpdate
      rw [if_pos hc]
    · rw [if_neg hc]
      have hmem' : fmr r ∈ fms rest := by
        rcases List.mem_cons.mp hmem with he | hm
        · exact absurd he.symm hc
        · exact hm
      rw [ih (List.nodup_cons.mp hnd).2 hmem']
      congr 1
      unfold pointUpdate
      rw [if_neg hc]

theorem upsertOne_eq_append (r : ProcRecord) :
    ∀ store : Store, fmr r ∉ fms store →
      upsertOne store r = store ++ [toStored r] := by
  intro store
  induction store with
  | nil => intro _; rfl
  | cons s0 rest ih =>
    intro hmem
    rw [fms_cons] at hmem
    simp only [upsertOne]
    rw [if_neg (fun hc => hmem (by rw [← hc]; exact List.mem_cons_self _ _)),
      List.cons_append]
    congr 1
    exact ih (fun hr => hmem (List.mem_cons_of_mem _ hr))

theorem fms_upsertOne (r : ProcRecord) :
    ∀ store : Store, fms (upsertOne store r) =
      if fmr r ∈ fms store then fms store else fms store ++ [fmr r] := by
  intro store
  induction store with
  | nil => rfl
  | cons s0 rest ih =>
    simp only [upsertOne]
    by_cases hc : fm s0 = fmr r
    · rw [if_pos hc]
      have hmem : fmr r ∈ fms (s0 :: rest) := by
        rw [fms_cons, ← hc]
        exact List.mem_cons_self _ _
      rw [if_pos hmem, fms_cons, fms_cons, fm_overwrite]
    · rw [if_neg hc, fms_cons, ih, fms_cons]
      by_cases hm : fmr r ∈ fms rest
      · rw [if_pos hm, if_pos (List.mem_cons_of_mem _ hm)]
      · rw [if_neg hm, if_neg, List.cons_append]
        intro hmem
        rcases List.mem_cons.mp hmem with he | h2
        · exact hc he.symm
        · exact hm h2

theorem nodup_fms_upsertOne (r : ProcRecord) (store : Store)
    (h : (fms store).Nodup) : (fms (upsertOne store r)).Nodup := by
  rw [fms_upsertOne]
  by_cases hm : fmr r ∈ fms store
  · rw [if_pos hm]
    exact h
  · rw [if_neg hm]
    simp [List.nodup_append, h, hm]

theorem fms_upsertOne_mono (r : ProcRecord) (store : Store) :
    fms store ⊆ fms (upsertOne store r) := by
  rw [fms_upsertOne]
  by_cases hm : fmr r ∈ fms store
  · rw [if_pos hm]
    exact fun x hx => hx
  · rw [if_neg hm]
    exact fun x hx => List.mem_append_left _ hx

theorem fmr_mem_fms_upsertOne (r : ProcRecord) (store : Store) :
    fmr r ∈ fms (upsertOne store r) := by
  rw [fms_upsertOne]
  by_cases hm : fmr r ∈ fms store
  · rw [if_pos hm]
    exact hm
  · rw [if_neg hm]
    exact List.mem_append_right _ (List.mem_singleton.mpr rfl)

theorem saveCountries_cons (r : ProcRecord) (rs : List ProcRecord) (store : Store) :
    saveCountries (r :: rs) store = saveCountries rs (upsertOne store r) := rfl

theorem nodup_fms_save (recs : List ProcRecord) :
    ∀ store : Store, (fms store).Nodup → (fms (saveCountries recs store)).Nodup := by
  induction recs with
  | nil => intro store h; exact h
  | cons r rs ih =>
    intro store h
    rw [saveCountries_cons]
    exact ih (upsertOne store r) (nodup_fms_upsertOne r store h)

theorem fms_save_mono (recs : List ProcRecord) :
    ∀ store : Store, fms store ⊆ fms (saveCountries recs store) := by
  induction recs with
  | nil => intro store x hx; exact hx
  | cons r rs ih =>
    intro store x hx
    rw [saveCountries_cons]
    exact ih (upsertOne store r) (fms_upsertOne_mono r store hx)

theorem fmr_mem_fms_save (recs : List ProcRecord) :
    ∀ store : Store, ∀ r ∈ recs, fmr r ∈ fms (saveCountries recs store) := by
  induction recs with
  | nil =>
    intro store r hr
    exact absurd hr (List.not_mem_nil r)
  | cons r0 rs ih =>
    intro store r hr
    rw [saveCountries_cons]
    rcases List.mem_cons.mp hr with he | hm
    · rw [he]
      exact fms_save_mono rs (upsertOne store r0) (fmr_mem_fms_upsertOne r0 store)
    · exact ih (upsertOne store r0) r hm

theorem deleteCountry_sublist (nm : String) :
    ∀ store : Store, ((deleteCountry nm store).2).Sublist store := by
  intro store
  induction store with
  | nil => simp [deleteCountry]
  | cons s rest ih =>
    simp only [deleteCountry]
    split
    · exact List.sublist_cons_self s rest
    · exact ih.cons₂ s

/-! ### Claim C7 -/

/-- Claim C7 (confirmed): batch upsert and delete preserve the at-most-one
row per case-folded name invariant, and when a record's case-folded name
matches an existing row, the upsert overwrites that row's fields in place —
the store becomes a pointwise update with unchanged length, no second row
inserted. -/
theorem C7_upsert_invariant (store : Store) (recs : List ProcRecord)
    (r : ProcRecord) (nm : String) (hnd : (fms store).Nodup) :
    (fms (saveCountries recs store)).Nodup ∧
    (fmr r ∈ fms store →
      upsertOne store r = store.map (pointUpdate r) ∧
      (upsertOne store r).length = store.length) ∧
    (fms (deleteCountry nm store).2).Nodup := by
  refine ⟨nodup_fms_save recs store hnd, fun hmem => ⟨?_, ?_⟩, ?_⟩
  · exact upsertOne_eq_map r store hnd hmem
  · rw [upsertOne_eq_map r store hnd hmem, List.length_map]
  · exact List.Nodup.sublist ((deleteCountry_sublist nm store).map fm) hnd

/-- A stored row for `France`, as after one refresh. -/
def franceRow : StoredCountry :=
  ⟨"France", some "Paris", some "Europe", 100, some "EUR", some 2, some 50000,
    some "f.png", some 1⟩

/-- A processed record for `france`, differing from `franceRow` only in name
case and field values. -/
def franceLowerRec : ProcRecord :=
  ⟨"france", none, none, 200, none, none, none, none, 8⟩

/-- Witness for C7: a store holding `France`, upserted with a batch naming
`france` (differing only in case) and probed with the single upsert of that
record; then `FRANCE` deleted. -/
theorem C7_upsert_invariant_witness :
    (fms (saveCountries [franceLowerRec] [franceRow])).Nodup ∧
    (fmr franceLowerRec ∈ fms [franceRow] →
      upsertOne [franceRow] franceLowerRec =
        [franceRow].map (pointUpdate franceLowerRec) ∧
      (upsertOne [franceRow] franceLowerRec).length = [franceRow].length) ∧
    (fms (deleteCountry "FRANCE" [franceRow]).2).Nodup :=
  C7_upsert_invariant [franceRow] [franceLowerRec] franceLowerRec "FRANCE" (by decide)

/-! ### Replay and field-provenance lemmas for re-refreshing -/

theorem map_congr_forall {α β : Type} (f g : α → β) :
    ∀ l : List α, (∀ x ∈ l, f x = g x) → l.map f = l.map g := by
  intro l
  induction l with
  | nil => intro _; rfl
  | cons x xs ih =>
    intro h
    simp only [List.map_cons]
    rw [h x (List.mem_cons_self x xs), ih (fun y hy => h y (List.mem_cons_of_mem x hy))]

/-- The last record of a batch whose case-folded name is `f`: its fields are
the ones that survive once `save_countries` has replayed the whole batch. -/
def lastWith : List ProcRecord → String → Option ProcRecord
  | [], _ => none
  | r :: rs, f =>
    match lastWith rs f with
    | some r' => some r'
    | none => if fmr r = f then some r else none

theorem lastWith_cons (r : ProcRecord) (rs : List ProcRecord) (f : String) :
    lastWith (r :: rs) f =
      match lastWith rs f with
      | some r' => some r'
      | none => if fmr r = f then some r else none := rfl

/-- The cumulative effect of a batch on one already-matched row. -/
def applyLast (recs : List ProcRecord) (s : StoredCountry) : StoredCountry :=
  match lastWith recs (fm s) with
  | some r => overwrite s r
  | none => s

theorem applyLast_nil (s : StoredCountry) : applyLast [] s = s := rfl

theorem fm_applyLast (recs : List ProcRecord) (s : StoredCountry) :
    fm (applyLast recs s) = fm s := by
  unfold applyLast
  cases lastWith recs (fm s) <;> rfl

theorem name_applyLast (recs : List ProcRecord) (s : StoredCountry) :
    (applyLast recs s).name = s.name := by
  unfold applyLast
  cases lastWith recs (fm s) <;> rfl

theorem applyLast_pointUpdate (r : ProcRecord) (rs : List ProcRecord)
    (s : StoredCountry) : applyLast rs (pointUpdate r s) = applyLast (r :: rs) s := by
  unfold applyLast
  rw [fm_pointUpdate]
  cases h : lastWith rs (fm s) with
  | some r' =>
    have h2 : lastWith (r :: rs) (fm s) = some r' := by
      simp only [lastWith_cons, h]
    simp only [h2]
    unfold pointUpdate
    by_cases hc : fm s = fmr r
    · rw [if_pos hc, overwrite_overwrite]
    · rw [if_neg hc]
  | none =>
    by_cases hc : fmr r = fm s
    · have h2 : lastWith (r :: rs) (fm s) = some r := by
        simp only [lastWith_cons, h]
        simp [hc]
      simp only [h2]
      unfold pointUpdate
      rw [if_pos hc.symm]
    · have h2 : lastWith (r :: rs) (fm s) = none := by
        simp only [lastWith_cons, h]
        simp [hc]
      simp only [h2]
      unfold pointUpdate
      rw [if_neg (fun hh => hc hh.symm)]

theorem fms_map_pointUpdate (r : ProcRecord) (store : Store) :
    fms (store.map (pointUpdate r)) = fms store := by
  unfold fms
  rw [List.map_map]
  exact map_congr_forall _ _ store (fun s _ => fm_pointUpdate r s)

/-- Replaying a batch whose every record matches an existing row turns the
store into a pointwise overwrite by the last matching record — no inserts. -/
theorem saveCountries_replay (recs : List ProcRecord) :
    ∀ store : Store, (fms store).Nodup → (∀ r ∈ recs, fmr r ∈ fms store) →
      saveCountries recs store = store.map (applyLast recs) := by
  induction recs with
  | nil =>
    intro store _ _
    simp only [saveCountries, List.foldl_nil]
    rw [map_eq_self_of_forall _ store (fun s _ => applyLast_nil s)]
  | cons r rs ih =>
    intro store hnd hmem
    rw [saveCountries_cons,
      upsertOne_eq_map r store hnd (hmem r (List.mem_cons_self r rs))]
    have hnd' : (fms (store.map (pointUpdate r))).Nodup := by
      rw [fms_map_pointUpdate]
      exact hnd
    have hmem' : ∀ r' ∈ rs, fmr r' ∈ fms (store.map (pointUpdate r)) := by
      intro r' hr'
      rw [fms_map_pointUpdate]
      exact hmem r' (List.mem_cons_of_mem r hr')
    rw [ih (store.map (pointUpdate r)) hnd' hmem', List.map_map]
    exact map_congr_forall _ _ store (fun s _ => applyLast_pointUpdate r rs s)

/-- Field provenance: after `save_countries`, every row either carries
exactly the fields of the last batch record with its case-folded name, or
was never touched and sat in the store already. -/
theorem saveCountries_fields (recs : List ProcRecord) :
    ∀ store : Store, (fms store).Nodup →
      ∀ s ∈ saveCountries recs store,
        (∀ r, lastWith recs (fm s) = some r → s = overwrite s r) ∧
        (lastWith recs (fm s) = none → s ∈ store) := by
  induction recs with
  | nil =>
    intro store _ s hs
    exact ⟨fun r hr => by simp [lastWith] at hr, fun _ => hs⟩
  | cons r rs ih =>
    intro store hnd s hs
    rw [saveCountries_cons] at hs
    by_cases hm : fmr r ∈ fms store
    · rw [upsertOne_eq_map r store hnd hm] at hs
      have hnd' : (fms (store.map (pointUpdate r))).Nodup := by
        rw [fms_map_pointUpdate]
        exact hnd
      obtain ⟨h1, h2⟩ := ih (store.map (pointUpdate r)) hnd' s hs
      constructor
      · intro r0 hr0
        cases hlast : lastWith rs (fm s) with
        | some r' =>
          simp only [lastWith_cons, hlast] at hr0
          rw [← Option.some.inj hr0]
          exact h1 r' hlast
        | none =>
          simp only [lastWith_cons, hlast] at hr0
          by_cases hc : fmr r = fm s
          · rw [if_pos hc] at hr0
            rw [← Option.some.inj hr0]
            obtain ⟨s0, hs0, rfl⟩ := List.mem_map.mp (h2 hlast)
            unfold pointUpdate
            by_cases hps : fm s0 = fmr r
            · rw [if_pos hps, overwrite_overwrite]
            · rw [fm_pointUpdate] at hc
              exact absurd hc.symm hps
          · rw [if_neg hc] at hr0
            simp at hr0
      · intro hnone
        cases hlast : lastWith rs (fm s) with
        | some r' =>
          simp only [lastWith_cons, hlast] at hnone
          simp at hnone
        | none =>
          simp only [lastWith_cons, hlast] at hnone
          by_cases hc : fmr r = fm s
          · rw [if_pos hc] at hnone
            simp at hnone
          · obtain ⟨s0, hs0, rfl⟩ := List.mem_map.mp (h2 hlast)
            rw [fm_pointUpdate] at hc
            unfold pointUpdate
            rw [if_neg (fun hh => hc hh.symm)]
            exact hs0
    · rw [upsertOne_eq_append r store hm] at hs
      have happ : fms (store ++ [toStored r]) = fms store ++ [fmr r] := by
        unfold fms
        rw [List.map_append]
        rfl
      have hnd' : (fms (store ++ [toStored r])).Nodup := by
        rw [happ]
        simp [List.nodup_append, hnd, hm]
      obtain ⟨h1, h2⟩ := ih (store ++ [toStored r]) hnd' s hs
      constructor
      · intro r0 hr0
        cases hlast : lastWith rs (fm s) with
        | some r' =>
          simp only [lastWith_cons, hlast] at hr0
          rw [← Option.some.inj hr0]
          exact h1 r' hlast
        | none =>
          simp only [lastWith_cons, hlast] at hr0
          by_cases hc : fmr r = fm s
          · rw [if_pos hc] at hr0
            rw [← Option.some.inj hr0]
            rcases List.mem_append.mp (h2 hlast) with hin | hone
            · exact absurd (by rw [hc]; exact List.mem_map_of_mem fm hin) hm
            · have hst : s = toStored r := by simpa using hone
              rw [hst, overwrite_toStored]
          · rw [if_neg hc] at hr0
            simp at hr0
      · intro hnone
        cases hlast : lastWith rs (fm s) with
        | some r' =>
          simp only [lastWith_cons, hlast] at hnone
          simp at hnone
        | none =>
          simp only [lastWith_cons, hlast] at hnone
          by_cases hc : fmr r = fm s
          · rw [if_pos hc] at hnone
            simp at hnone
          · rcases List.mem_append.mp (h2 hlast) with hin | hone
            · exact hin
            · have hst : s = toStored r := by simpa using hone
              exact absurd (by rw [hst, fm_toStored]) hc

/-! ### Claim C5 -/

/-- Relation between records processed from the same entity in two refreshes:
every field agrees except the redrawn `estimated_gdp` and the refresh
timestamp. -/
def sameExceptGdpTs (a b : ProcRecord) : Prop :=
  a.name = b.name ∧ a.capital = b.capital ∧ a.region = b.region ∧
  a.population = b.population ∧ a.currency_code = b.currency_code ∧
  a.exchange_rate = b.exchange_rate ∧ a.flag_url = b.flag_url

/-- Relation between stored rows before and after a re-refresh with the same
source data: every column agrees except `estimated_gdp` and
`last_refreshed_at`. -/
def eqExceptTsGdp (s t : StoredCountry) : Prop :=
  s.name = t.name ∧ s.capital = t.capital ∧ s.region = t.region ∧
  s.population = t.population ∧ s.currency_code = t.currency_code ∧
  s.exchange_rate = t.exchange_rate ∧ s.flag_url = t.flag_url

theorem derive_rand_pair (cur : List (Option Currency)) (rates : Option RateTable)
    (p v1 v2 : Int) (o1 o2 : Option String × Option ℚ × Option ℚ)
    (h1 : deriveCurrency cur rates p v1 = Except.ok o1)
    (h2 : deriveCurrency cur rates p v2 = Except.ok o2) :
    o1.1 = o2.1 ∧ o1.2.1 = o2.2.1 := by
  cases cur with
  | nil =>
    simp [deriveCurrency] at h1 h2
    rw [← h1, ← h2]
    exact ⟨rfl, rfl⟩
  | cons c0 rest =>
    simp only [deriveCurrency] at h1 h2
    cases hcd : firstCode (c0 :: rest) with
    | none =>
      rw [hcd] at h1 h2
      simp at h1 h2
      rw [← h1, ← h2]
      exact ⟨rfl, rfl⟩
    | some cd =>
      rw [hcd] at h1 h2
      by_cases he : cd = ""
      · simp [he] at h1 h2
        rw [← h1, ← h2]
        exact ⟨rfl, rfl⟩
      · simp [he] at h1 h2
        cases hr : ratesLookup rates cd with
        | none =>
          rw [hr] at h1 h2
          simp at h1 h2
          rw [← h1, ← h2]
          exact ⟨rfl, rfl⟩
        | some r =>
          rw [hr] at h1 h2
          by_cases hz : r = 0
          · simp [hz] at h1
          · simp [hz] at h1 h2
            rw [← h1, ← h2]
            exact ⟨rfl, rfl⟩

theorem processGo_rand_pair (rates : Option RateTable) (ts1 ts2 : Nat)
    (rand1 rand2 : Nat → Int) :
    ∀ (cs : List RawCountry) (i : Nat) (errs : List (String × VErr))
      (l1 l2 : List ProcRecord),
      processGo rates ts1 rand1 i cs errs = ProcResult.ok l1 →
      processGo rates ts2 rand2 i cs errs = ProcResult.ok l2 →
      List.Forall₂ sameExceptGdpTs l1 l2 := by
  intro cs
  induction cs with
  | nil =>
    intro i errs l1 l2 h1 h2
    cases errs with
    | nil =>
      simp [processGo] at h1 h2
      rw [h1, h2]
      exact List.Forall₂.nil
    | cons p ps => simp [processGo] at h1
  | cons c rest ih =>
    intro i errs l1 l2 h1 h2
    simp only [processGo] at h1 h2
    by_cases hinv : invalidEntity c = true
    · rw [if_pos hinv] at h1 h2
      exact ih _ _ _ _ h1 h2
    · rw [if_neg hinv] at h1 h2
      cases hd1 : deriveCurrency c.currencies rates (c.population.getD 0) (rand1 i) with
      | error e =>
        rw [hd1] at h1
        cases h1
      | ok o1 =>
        rw [hd1] at h1
        cases hd2 : deriveCurrency c.currencies rates (c.population.getD 0) (rand2 i) with
        | error e =>
          rw [hd2] at h2
          cases h2
        | ok o2 =>
          rw [hd2] at h2
          cases hp1 : processGo rates ts1 rand1 (i + 1) rest errs with
          | fault => rw [hp1] at h1; cases h1
          | invalid e => rw [hp1] at h1; cases h1
          | ok ps1 =>
            rw [hp1] at h1
            cases hp2 : processGo rates ts2 rand2 (i + 1) rest errs with
            | fault => rw [hp2] at h2; cases h2
            | invalid e => rw [hp2] at h2; cases h2
            | ok ps2 =>
              rw [hp2] at h2
              cases h1
              cases h2
              obtain ⟨hcc, her⟩ := derive_rand_pair c.currencies rates
                (c.population.getD 0) (rand1 i) (rand2 i) o1 o2 hd1 hd2
              exact List.Forall₂.cons
                ⟨rfl, rfl, rfl, rfl, hcc, her, rfl⟩
                (ih _ _ _ _ hp1 hp2)

theorem processGo_ts (rates : Option RateTable) (ts1 ts2 : Nat) (rand : Nat → Int) :
    ∀ (cs : List RawCountry) (i : Nat) (errs : List (String × VErr))
      (l1 : List ProcRecord),
      processGo rates ts1 rand i cs errs = ProcResult.ok l1 →
      processGo rates ts2 rand i cs errs =
        ProcResult.ok (l1.map fun r => { r with last_refreshed_at := ts2 }) := by
  intro cs
  induction cs with
  | nil =>
    intro i errs l1 h1
    cases errs with
    | nil =>
      have he : l1 = [] := by simpa [processGo] using h1.symm
      subst he
      simp [processGo]
    | cons p ps => simp [processGo] at h1
  | cons c rest ih =>
    intro i errs l1 h1
    simp only [processGo] at h1 ⊢
    by_cases hinv : invalidEntity c = true
    · rw [if_pos hinv] at h1 ⊢
      exact ih _ _ _ h1
    · rw [if_neg hinv] at h1 ⊢
      cases hd : deriveCurrency c.currencies rates (c.population.getD 0) (rand i) with
      | error e =>
        rw [hd] at h1
        cases h1
      | ok out =>
        rw [hd] at h1
        cases hp : processGo rates ts1 rand (i + 1) rest errs with
        | fault => rw [hp] at h1; cases h1
        | invalid e => rw [hp] at h1; cases h1
        | ok ps =>
          rw [hp] at h1
          cases h1
          rw [ih _ _ _ hp]
          rfl

theorem lastWith_none_iff (f : String) :
    ∀ recs : List ProcRecord, (lastWith recs f = none ↔ f ∉ recs.map fmr) := by
  intro recs
  induction recs with
  | nil => simp [lastWith]
  | cons r rs ih =>
    constructor
    · intro hh
      cases h : lastWith rs f with
      | some r' =>
        simp only [lastWith_cons, h] at hh
        simp at hh
      | none =>
        simp only [lastWith_cons, h] at hh
        by_cases hc : fmr r = f
        · rw [if_pos hc] at hh
          simp at hh
        · rw [List.map_cons, List.mem_cons]
          rintro (he | hmem)
          · exact hc he.symm
          · exact (ih.mp h) hmem
    · intro hmem
      rw [List.map_cons, List.mem_cons] at hmem
      have hne : f ≠ fmr r := fun he => hmem (Or.inl he)
      have hnotin : f ∉ rs.map fmr := fun hin => hmem (Or.inr hin)
      simp only [lastWith_cons, ih.mpr hnotin]
      rw [if_neg (fun hc => hne hc.symm)]

theorem lastWith_map_setTs (t : Nat) (f : String) :
    ∀ recs : List ProcRecord,
      lastWith (recs.map fun r => { r with last_refreshed_at := t }) f =
        (lastWith recs f).map fun r => { r with last_refreshed_at := t } := by
  intro recs
  induction recs with
  | nil => rfl
  | cons r rs ih =>
    rw [List.map_cons]
    simp only [lastWith_cons, ih]
    cases h : lastWith rs f with
    | some r' => rfl
    | none =>
      simp only [Option.map_none']
      have hfm : fmr { r with last_refreshed_at := t } = fmr r := rfl
      rw [hfm]
      by_cases hc : fmr r = f
      · rw [if_pos hc, if_pos hc]
        rfl
      · rw [if_neg hc, if_neg hc]
        rfl

theorem forall₂_map_fmr {l1 l2 : List ProcRecord}
    (h : List.Forall₂ sameExceptGdpTs l1 l2) : l1.map fmr = l2.map fmr := by
  induction h with
  | nil => rfl
  | @cons a b as bs hab hrest ih =>
    rw [List.map_cons, List.map_cons, ih]
    congr 1
    unfold fmr
    rw [hab.1]

theorem lastWith_forall₂ {l1 l2 : List ProcRecord}
    (h : List.Forall₂ sameExceptGdpTs l1 l2) (f : String) :
    (lastWith l1 f = none ↔ lastWith l2 f = none) ∧
    (∀ r1 r2, lastWith l1 f = some r1 → lastWith l2 f = some r2 →
      sameExceptGdpTs r1 r2) := by
  induction h with
  | nil =>
    refine ⟨Iff.rfl, fun r1 r2 h1 _ => ?_⟩
    simp [lastWith] at h1
  | @cons a b as bs hab hrest ih =>
    have hfm : fmr a = fmr b := by
      unfold fmr
      rw [hab.1]
    constructor
    · cases ha : lastWith as f with
      | some r' =>
        cases hb : lastWith bs f with
        | none =>
          exact absurd (ih.1.mpr hb) (by simp [ha])
        | some r'' =>
          simp only [lastWith_cons, ha, hb]
          simp
      | none =>
        have hb : lastWith bs f = none := ih.1.mp ha
        simp only [lastWith_cons, ha, hb]
        by_cases hc : fmr a = f
        · rw [if_pos hc, if_pos (hfm.symm.trans hc)]
          simp
        · rw [if_neg hc, if_neg (fun hh => hc (hfm.trans hh))]
    · intro r1 r2 h1 h2
      cases ha : lastWith as f with
      | some r' =>
        cases hb : lastWith bs f with
        | none =>
          exact absurd (ih.1.mpr hb) (by simp [ha])
        | some r'' =>
          simp only [lastWith_cons, ha] at h1
          simp only [lastWith_cons, hb] at h2
          rw [← Option.some.inj h1, ← Option.some.inj h2]
          exact ih.2 r' r'' ha hb
      | none =>
        have hb : lastWith bs f = none := ih.1.mp ha
        simp only [lastWith_cons, ha] at h1
        simp only [lastWith_cons, hb] at h2
        by_cases hc : fmr a = f
        · rw [if_pos hc] at h1
          rw [if_pos (hfm.symm.trans hc)] at h2
          rw [← Option.some.inj h1, ← Option.some.inj h2]
          exact hab
        · rw [if_neg hc] at h1
          simp at h1

theorem overwrite_setTs_of_fields (s : StoredCountry) (r : ProcRecord) (t : Nat)
    (h : s = overwrite s r) :
    overwrite s { r with last_refreshed_at := t } =
      { s with last_refreshed_at := some t } := by
  obtain ⟨n, cap, reg, pop, cc, er, g, fl, ts0⟩ := s
  simp_all [overwrite]

theorem eqExceptTsGdp_refl (s : StoredCountry) : eqExceptTsGdp s s :=
  ⟨rfl, rfl, rfl, rfl, rfl, rfl, rfl⟩

/-- The store component of a refresh whose processing succeeded is the saved
store, whether or not the summary image could be rendered. -/
theorem refresh_store_of_ok (countries : List RawCountry) (rates : Option RateTable)
    (ts : Nat) (rand : Nat → Int) (img : Bool) (store : Store)
    (recs : List ProcRecord)
    (h : processCountries countries rates ts rand = ProcResult.ok recs) :
    (refreshCountries (some (countries, rates)) ts rand img store).2 =
      saveCountries recs store := by
  cases img <;> simp [refreshCountries, h]

/-- The row stored for `franceRaw` by a refresh at timestamp 1 drawing
multiplier 1000 against rate table `EUR = 2`. -/
def franceStored1 : StoredCountry :=
  ⟨"France", some "Paris", some "Europe", 100, some "EUR", some 2,
    some (((100 : Int) : ℚ) * ((1000 : Int) : ℚ) / (2 : ℚ)), some "f.png", some 1⟩

/-- The row stored for `franceRaw` by a refresh at timestamp 2 drawing
multiplier 2000. -/
def franceStored2 : StoredCountry :=
  ⟨"France", some "Paris", some "Europe", 100, some "EUR", some 2,
    some (((100 : Int) : ℚ) * ((2000 : Int) : ℚ) / (2 : ℚ)), some "f.png", some 2⟩

/-- The processed record behind `franceStored1`. -/
def franceRec1000 : ProcRecord :=
  ⟨"France", some "Paris", some "Europe", 100, some "EUR", some 2,
    some (((100 : Int) : ℚ) * ((1000 : Int) : ℚ) / (2 : ℚ)), some "f.png", 1⟩

/-- The processed record behind `franceStored2`. -/
def franceRec2000 : ProcRecord :=
  ⟨"France", some "Paris", some "Europe", 100, some "EUR", some 2,
    some (((100 : Int) : ℚ) * ((2000 : Int) : ℚ) / (2 : ℚ)), some "f.png", 2⟩

/-- Claim C5 (corrected), counterexample: two back-to-back refreshes of the
same single-entity source data with legitimate multiplier draws 1000 and
2000.  The second refresh changes `estimated_gdp` (50000 to 100000), so the
re-refresh does NOT "only update last_refreshed_at". -/
theorem C5_counterexample :
    (refreshCountries (some ([franceRaw], some [("EUR", 2)])) 1 (fun _ => 1000)
      true []).2 = [franceStored1] ∧
    (refreshCountries (some ([franceRaw], some [("EUR", 2)])) 2 (fun _ => 2000)
      true [franceStored1]).2 = [franceStored2] ∧
    franceStored1.estimated_gdp = some 50000 ∧
    franceStored2.estimated_gdp = some 100000 ∧
    [franceStored2] ≠ [franceStored1].map
      (fun s => { s with last_refreshed_at := some 2 }) := by
  refine ⟨rfl, rfl, ?_, ?_, ?_⟩
  · show some (((100 : Int) : ℚ) * ((1000 : Int) : ℚ) / (2 : ℚ)) = some 50000
    norm_num
  · show some (((100 : Int) : ℚ) * ((2000 : Int) : ℚ) / (2 : ℚ)) = some 100000
    norm_num
  · intro h
    have hg : franceStored2.estimated_gdp =
        ({ franceStored1 with last_refreshed_at := some 2 } :
          StoredCountry).estimated_gdp := by
      rw [show franceStored2 =
        { franceStored1 with last_refreshed_at := some 2 } from
          List.head_eq_of_cons_eq h]
    revert hg
    show some (((100 : Int) : ℚ) * ((2000 : Int) : ℚ) / (2 : ℚ)) =
      some (((100 : Int) : ℚ) * ((1000 : Int) : ℚ) / (2 : ℚ)) → False
    intro hg
    rw [Option.some.injEq] at hg
    norm_num at hg

/-- Claim C5 (corrected, amended): running refresh twice in a row with
identical source data (over a store with unique case-folded names) yields
the same record set — identical name column, invariant preserved, never a
duplicated row — and touches only `last_refreshed_at` and the redrawn
`estimated_gdp` of each re-processed record (all other columns agree
pointwise); when the second refresh happens to draw the same multipliers,
only `last_refreshed_at` changes, exactly on the rows named by the batch. -/
theorem C5_idempotent_amended (countries : List RawCountry)
    (rates : Option RateTable) (ts1 ts2 : Nat) (rand1 rand2 : Nat → Int)
    (img1 img2 : Bool) (store0 : Store) (l1 l2 : List ProcRecord)
    (hnd : (fms store0).Nodup)
    (h1 : processCountries countries rates ts1 rand1 = ProcResult.ok l1)
    (h2 : processCountries countries rates ts2 rand2 = ProcResult.ok l2) :
    (refreshCountries (some (countries, rates)) ts1 rand1 img1 store0).2 =
      saveCountries l1 store0 ∧
    (refreshCountries (some (countries, rates)) ts2 rand2 img2
      (saveCountries l1 store0)).2 = saveCountries l2 (saveCountries l1 store0) ∧
    (saveCountries l2 (saveCountries l1 store0)).map StoredCountry.name =
      (saveCountries l1 store0).map StoredCountry.name ∧
    (fms (saveCountries l2 (saveCountries l1 store0))).Nodup ∧
    List.Forall₂ eqExceptTsGdp (saveCountries l1 store0)
      (saveCountries l2 (saveCountries l1 store0)) ∧
    (rand1 = rand2 →
      saveCountries l2 (saveCountries l1 store0) =
        (saveCountries l1 store0).map fun s =>
          if fm s ∈ l1.map fmr then { s with last_refreshed_at := some ts2 }
          else s) := by
  have hpair : List.Forall₂ sameExceptGdpTs l1 l2 :=
    processGo_rand_pair rates ts1 ts2 rand1 rand2 countries 0 [] l1 l2 h1 h2
  have hfmr : l1.map fmr = l2.map fmr := forall₂_map_fmr hpair
  have hnd1 : (fms (saveCountries l1 store0)).Nodup := nodup_fms_save l1 store0 hnd
  have hpresent : ∀ r ∈ l2, fmr r ∈ fms (saveCountries l1 store0) := by
    intro r hr
    have hmem : fmr r ∈ l2.map fmr := List.mem_map_of_mem fmr hr
    rw [← hfmr] at hmem
    obtain ⟨r1, hr1, hfr⟩ := List.mem_map.mp hmem
    rw [← hfr]
    exact fmr_mem_fms_save l1 store0 r1 hr1
  have hreplay : saveCountries l2 (saveCountries l1 store0) =
      (saveCountries l1 store0).map (applyLast l2) :=
    saveCountries_replay l2 (saveCountries l1 store0) hnd1 hpresent
  have hfms2 : fms (saveCountries l2 (saveCountries l1 store0)) =
      fms (saveCountries l1 store0) := by
    rw [hreplay]
    unfold fms
    rw [List.map_map]
    exact map_congr_forall _ _ _ (fun s _ => fm_applyLast l2 s)
  refine ⟨refresh_store_of_ok countries rates ts1 rand1 img1 store0 l1 h1,
    refresh_store_of_ok countries rates ts2 rand2 img2 _ l2 h2, ?_, ?_, ?_, ?_⟩
  · rw [hreplay, List.map_map]
    exact map_congr_forall _ _ _ (fun s _ => name_applyLast l2 s)
  · rw [hfms2]
    exact hnd1
  · rw [hreplay]
    rw [List.forall₂_map_right_iff, List.forall₂_same]
    intro s hs
    cases hl2 : lastWith l2 (fm s) with
    | none =>
      simp only [applyLast, hl2]
      exact eqExceptTsGdp_refl s
    | some r2 =>
      have hl1 : ∃ r1, lastWith l1 (fm s) = some r1 := by
        cases hx : lastWith l1 (fm s) with
        | none => exact absurd ((lastWith_forall₂ hpair (fm s)).1.mp hx) (by simp [hl2])
        | some r1 => exact ⟨r1, rfl⟩
      obtain ⟨r1, hl1⟩ := hl1
      have hfield : s = overwrite s r1 :=
        (saveCountries_fields l1 store0 hnd s hs).1 r1 hl1
      have hrel : sameExceptGdpTs r1 r2 :=
        (lastWith_forall₂ hpair (fm s)).2 r1 r2 hl1 hl2
      simp only [applyLast, hl2]
      exact ⟨rfl,
        (congrArg StoredCountry.capital hfield).trans hrel.2.1,
        (congrArg StoredCountry.region hfield).trans hrel.2.2.1,
        (congrArg StoredCountry.population hfield).trans hrel.2.2.2.1,
        (congrArg StoredCountry.currency_code hfield).trans hrel.2.2.2.2.1,
        (congrArg StoredCountry.exchange_rate hfield).trans hrel.2.2.2.2.2.1,
        (congrArg StoredCountry.flag_url hfield).trans hrel.2.2.2.2.2.2⟩
  · intro hrr
    subst hrr
    have hts := processGo_ts rates ts1 ts2 rand1 countries 0 [] l1 h1
    have hl2eq : l2 = l1.map fun r => { r with last_refreshed_at := ts2 } :=
      ProcResult.ok.inj (h2.symm.trans hts)
    rw [hreplay]
    refine map_congr_forall _ _ _ (fun s hs => ?_)
    rw [hl2eq]
    unfold applyLast
    rw [lastWith_map_setTs ts2 (fm s) l1]
    cases hl1 : lastWith l1 (fm s) with
    | none =>
      simp only [Option.map_none']
      rw [if_neg ((lastWith_none_iff (fm s) l1).mp hl1)]
    | some r1 =>
      simp only [Option.map_some']
      have hfield : s = overwrite s r1 :=
        (saveCountries_fields l1 store0 hnd s hs).1 r1 hl1
      rw [overwrite_setTs_of_fields s r1 ts2 hfield]
      rw [if_pos ?_]
      by_contra hnotin
      rw [← lastWith_none_iff (fm s) l1] at hnotin
      rw [hnotin] at hl1
      cases hl1

/-- Witness for C5: the amended statement applied to the concrete double
refresh of `franceRaw` with draws 1000 then 2000. -/
theorem C5_idempotent_amended_witness :
    (refreshCountries (some ([franceRaw], some [("EUR", 2)])) 1 (fun _ => 1000)
      true []).2 = saveCountries [franceRec1000] [] ∧
    (refreshCountries (some ([franceRaw], some [("EUR", 2)])) 2 (fun _ => 2000)
      true (saveCountries [franceRec1000] [])).2 =
      saveCountries [franceRec2000] (saveCountries [franceRec1000] []) ∧
    (saveCountries [franceRec2000] (saveCountries [franceRec1000] [])).map
      StoredCountry.name = (saveCountries [franceRec1000] []).map
      StoredCountry.name ∧
    (fms (saveCountries [franceRec2000] (saveCountries [franceRec1000] []))).Nodup ∧
    List.Forall₂ eqExceptTsGdp (saveCountries [franceRec1000] [])
      (saveCountries [franceRec2000] (saveCountries [franceRec1000] [])) ∧
    ((fun _ => 1000 : Nat → Int) = (fun _ => 2000 : Nat → Int) →
      saveCountries [franceRec2000] (saveCountries [franceRec1000] []) =
        (saveCountries [franceRec1000] []).map fun s =>
          if fm s ∈ [franceRec1000].map fmr then
            { s with last_refreshed_at := some 2 }
          else s) :=
  C5_idempotent_amended [franceRaw] (some [("EUR", 2)]) 1 2 (fun _ => 1000)
    (fun _ => 2000) true true [] [franceRec1000] [franceRec2000]
    (by decide) rfl rfl

end Countries

